import Mathlib

/-!
Verification of the document chunking and retrieval pipeline of the
local-rag-service repository.

Python strings are modelled as lists of characters (one entry per code
point, so list length coincides with Python len).  The relevant pieces of
app/services/document_service.py, app/services/vector_service.py and
app/api/routes.py are embedded as executable Lean definitions; external
collaborators (ChromaDB collection, embedding model, LLM, filesystem) are
modelled as explicit inputs, with operations that can raise modelled in
the Except monad.
-/

namespace RagService

/-- Python strings as lists of characters. -/
abbrev Str := List Char

/-- The blank-line separator used by the chunker, the two characters of
the Python literal of a backslash-n pair repeated twice. -/
def nnSep : Str := ['\n', '\n']

/-- ASCII whitespace as recognised by Python str.strip and str.split
(space, tab, newline, carriage return, vertical tab, form feed). -/
def pyIsSpace (c : Char) : Bool :=
  c = ' ' || c = '\t' || c = '\n' || c = '\r' || c = '\x0b' || c = '\x0c'

/-- Python str.strip: drop leading and trailing whitespace. -/
def pyStrip (s : Str) : Str :=
  ((s.dropWhile pyIsSpace).reverse.dropWhile pyIsSpace).reverse

/-- Python text.split on a two-newline separator: leftmost
non-overlapping occurrences cut the string; empty pieces are kept. -/
def splitNN : Str → List Str
  | [] => [[]]
  | '\n' :: '\n' :: rest => [] :: splitNN rest
  | c :: rest =>
    match splitNN rest with
    | [] => [[c]]
    | h :: t => (c :: h) :: t

/-- Helper for Python str.split with no argument: accumulate the current
word (reversed) while scanning. -/
def pyWordsAux : Str → Str → List Str
  | [], acc => if acc = [] then [] else [acc.reverse]
  | c :: rest, acc =>
    if pyIsSpace c then
      if acc = [] then pyWordsAux rest [] else acc.reverse :: pyWordsAux rest []
    else pyWordsAux rest (c :: acc)

/-- Python str.split with no argument: split on whitespace runs,
discarding empty pieces. -/
def pyWords (s : Str) : List Str := pyWordsAux s []

/-- Python slice s[-k:]: the last k characters, except that k = 0 denotes
the whole string (Python reads -0 as 0). -/
def pySliceLast (k : Nat) (s : Str) : Str :=
  if k = 0 then s else s.drop (s.length - k)

/-!  Metadata dictionaries.  Python dict values occurring in this code
are strings or integers; dictionaries are insertion-ordered association
lists with unique keys, where updating an existing key keeps its
position. -/

/-- A metadata value: a string or an integer. -/
inductive MetaVal where
  | s (v : Str)
  | i (v : Int)
deriving DecidableEq, Repr

/-- A Python dict from string keys to scalar values, in insertion order. -/
abbrev Metadata := List (Str × MetaVal)

/-- Python dict lookup d.get(k): the value at the first matching key. -/
def dictGet (d : Metadata) (k : Str) : Option MetaVal :=
  match d with
  | [] => none
  | (k', v) :: rest => if k' = k then some v else dictGet rest k

/-- Python dict item assignment: update an existing key in place,
otherwise append the new pair at the end. -/
def dictInsert : Metadata → Str → MetaVal → Metadata
  | [], k, v => [(k, v)]
  | (k', v') :: rest, k, v =>
    if k' = k then (k', v) :: rest else (k', v') :: dictInsert rest k v

/-- A Python dict display that starts from base entries and then splats a
mapping m over them: each pair of m is inserted left to right, later
pairs overriding earlier ones and the base. -/
def dictMerge (base : Metadata) (m : Metadata) : Metadata :=
  m.foldl (fun d kv => dictInsert d kv.1 kv.2) base

/-! The chunker: DocumentService.split_into_chunks together with its
helpers _get_overlap_text and _split_long_text
(app/services/document_service.py). -/

/-- DocumentChunk dataclass from app/services/document_service.py. -/
structure DocumentChunk where
  content : Str
  source : Str
  chunk_index : Nat
  metadata : Metadata
deriving DecidableEq, Repr

/-- DocumentService._get_overlap_text: the whole text when it is no
longer than chunk_overlap, otherwise its last chunk_overlap characters,
followed by the blank-line separator. -/
def getOverlapText (chunk_overlap : Nat) (text : Str) : Str :=
  if text.length ≤ chunk_overlap then text ++ nnSep
  else pySliceLast chunk_overlap text ++ nnSep

/-- Loop body of DocumentService._split_long_text: greedily pack the
whitespace-split words into chunks of at most chunk_size characters,
starting at the given chunk index; a final non-blank buffer is flushed. -/
def splitLongAux (cs : Nat) (source : Str) (md : Metadata) :
    List Str → Str → Nat → List DocumentChunk
  | [], cur, idx =>
    if pyStrip cur ≠ [] then [⟨cur, source, idx, md⟩] else []
  | w :: ws, cur, idx =>
    if cur.length + w.length + 1 ≤ cs then
      splitLongAux cs source md ws (cur ++ (if cur = [] then [] else [' ']) ++ w) idx
    else if cur ≠ [] then
      ⟨cur, source, idx, md⟩ :: splitLongAux cs source md ws w (idx + 1)
    else
      splitLongAux cs source md ws w idx

/-- DocumentService._split_long_text: word-level fallback for a
paragraph longer than the chunk size. -/
def splitLongText (cs : Nat) (source : Str) (text : Str) (start_index : Nat)
    (md : Metadata) : List DocumentChunk :=
  splitLongAux cs source md (pyWords text) [] start_index

/-- Loop body of DocumentService.split_into_chunks over the remaining
paragraphs, carrying the current buffer and next chunk index: skip blank
paragraphs, greedily accumulate with a blank-line separator while the
size check passes, otherwise flush the buffer and seed the next one with
the overlap tail, or fall back to word-level splitting when the buffer is
empty; a final non-blank buffer is flushed. -/
def splitAux (cs co : Nat) (source : Str) (md : Metadata) :
    List Str → Str → Nat → List DocumentChunk
  | [], cur, idx =>
    if pyStrip cur ≠ [] then [⟨cur, source, idx, md⟩] else []
  | p :: ps, cur, idx =>
    let para := pyStrip p
    if para = [] then splitAux cs co source md ps cur idx
    else if cur.length + para.length + 2 ≤ cs then
      splitAux cs co source md ps (cur ++ (if cur = [] then [] else nnSep) ++ para) idx
    else if cur ≠ [] then
      let ov := getOverlapText co cur
      ⟨cur, source, idx, md⟩ ::
        splitAux cs co source md ps (if ov ≠ [] then ov ++ para else para) (idx + 1)
    else
      let pcs := splitLongText cs source para idx md
      pcs ++ splitAux cs co source md ps [] (idx + pcs.length)

/-- DocumentService.split_into_chunks with chunk_size cs and
chunk_overlap co: empty result on blank input, otherwise the paragraph
loop over the blank-line split of the text, starting with an empty buffer
and chunk index 0.  The Python metadata default None becomes the empty
dict before use, so md is taken directly. -/
def splitIntoChunks (cs co : Nat) (text source : Str) (md : Metadata) :
    List DocumentChunk :=
  if pyStrip text = [] then []
  else splitAux cs co source md (splitNN text) [] 0

/-! The vector store adapter: VectorService
(app/services/vector_service.py).  The ChromaDB collection is modelled
as a list of records in insertion order; embeddings are computed by an
external model and play no role in the stored data we reason about. -/

/-- Decimal rendering of a natural number, as Python str would give. -/
def natStr (n : Nat) : Str := (Nat.repr n).data

/-- The reserved metadata key for the originating document. -/
def srcKey : Str := ("source").data

/-- The reserved metadata key for the chunk position. -/
def idxKey : Str := ("chunk_index").data

/-- One entry of the ChromaDB collection: identifier, document text and
metadata. -/
structure IndexRecord where
  id : Str
  document : Str
  metadata : Metadata
deriving DecidableEq, Repr

/-- The ChromaDB collection contents, in insertion order. -/
abbrev IndexState := List IndexRecord

/-- The metadata persisted for a chunk by VectorService.add_chunks: a
dict display listing source and chunk_index first and then splatting the
chunk's own metadata over them. -/
def storedMeta (c : DocumentChunk) : Metadata :=
  dictMerge [(srcKey, MetaVal.s c.source), (idxKey, MetaVal.i c.chunk_index)]
    c.metadata

/-- The record VectorService.add_chunks builds for one chunk, with the
stable identifier source underscore chunk_index. -/
def chunkRecord (c : DocumentChunk) : IndexRecord :=
  ⟨c.source ++ '_' :: natStr c.chunk_index, c.content, storedMeta c⟩

/-- VectorService.add_chunks on the collection state: 0 for an empty
input without touching the store, otherwise append one record per chunk
and return how many were added. -/
def addChunksState (st : IndexState) (chunks : List DocumentChunk) :
    IndexState × Nat :=
  if chunks = [] then (st, 0)
  else (st ++ chunks.map chunkRecord, chunks.length)

/-- The where filter of collection.get in VectorService.delete_by_source:
a record matches when its metadata source field equals the given string. -/
def matchesSource (source : Str) (r : IndexRecord) : Bool :=
  decide (dictGet r.metadata srcKey = some (MetaVal.s source))

/-- VectorService.delete_by_source on the collection state: look up the
records whose metadata source matches, remove them, and return how many
matched (0 when none did). -/
def deleteBySourceState (st : IndexState) (source : Str) : IndexState × Nat :=
  ((st.filter fun r => ! matchesSource source r),
    (st.filter (matchesSource source)).length)

/-- A search result as formatted by VectorService.search: document text,
the metadata source field (whatever value it holds, the string unknown
when absent), and the score. Scores are modelled as rationals. -/
structure SearchResult where
  content : Str
  source : MetaVal
  score : ℚ
deriving DecidableEq, Repr

/-- The string returned for a missing source field. -/
def unknownStr : Str := ("unknown").data

/-- The result-formatting loop of VectorService.search over the parallel
lists of documents, metadatas and (optionally absent) distances returned
by the collection query: each result carries the document, the metadata
source field with default unknown, and score 1 minus the distance, or
0.0 when the distances list is absent. -/
def formatResults : List Str → List Metadata → Option (List ℚ) → List SearchResult
  | [], _, _ => []
  | doc :: docs, metas, dists =>
    { content := doc
      source := (dictGet (metas.headD []) srcKey).getD (MetaVal.s unknownStr)
      score := match dists with
               | some ds => 1 - ds.headD 0
               | none => 0 } ::
      formatResults docs metas.tail (dists.map List.tail)

/-! Failure behaviour of the store adapter.  The ChromaDB client calls
can raise; VectorService.delete_by_source and VectorService.get_sources
wrap no handler around them, which we model by running the calls in the
Except monad. -/

/-- An opaque error raised by the underlying store. -/
inductive StoreErr where
  | failure
deriving DecidableEq, Repr

/-- The collection operations used by delete_by_source and get_sources,
each able to raise. -/
structure ChromaCollection where
  getIdsBySource : Str → Except StoreErr (List Str)
  deleteIds : List Str → Except StoreErr Unit
  getAllMetadatas : Except StoreErr (List Metadata)
  count : Nat

/-- VectorService.delete_by_source against a raising-capable collection:
get the ids for the source, delete them and return their number when any
matched, otherwise return 0.  No exception handler is present in the
source, so a raise propagates. -/
def deleteBySourceExc (c : ChromaCollection) (source : Str) :
    Except StoreErr Nat := do
  let ids ← c.getIdsBySource source
  if ids ≠ [] then
    let _ ← c.deleteIds ids
    pure ids.length
  else
    pure 0

/-- VectorService.get_sources against a raising-capable collection:
empty list for an empty collection, otherwise the distinct metadata
source fields (default empty string) of all records.  Python builds a
set and lists it; we model the distinct values by first-occurrence
deduplication.  No exception handler is present in the source, so a
raise propagates. -/
def getSourcesExc (c : ChromaCollection) : Except StoreErr (List MetaVal) :=
  if c.count = 0 then .ok []
  else do
    let metas ← c.getAllMetadatas
    if metas ≠ [] then
      .ok ((metas.map fun m => (dictGet m srcKey).getD (MetaVal.s [])).dedup)
    else
      .ok []

/-! File validation: DocumentService.validate_file together with the
suffix computation of pathlib.PurePath and str.lower. -/

/-- Split a string on every occurrence of one character, keeping empty
pieces. -/
def splitOnChar (sep : Char) : Str → List Str
  | [] => [[]]
  | c :: rest =>
    if c = sep then [] :: splitOnChar sep rest
    else
      match splitOnChar sep rest with
      | [] => [[c]]
      | h :: t => (c :: h) :: t

/-- The path components pathlib keeps: slash-separated pieces that are
neither empty nor a lone dot. -/
def pathParts (s : Str) : List Str :=
  (splitOnChar '/' s).filter fun comp => decide (comp ≠ [] ∧ comp ≠ ['.'])

/-- PurePath.name: the final path component, empty for an empty path. -/
def pathName (s : Str) : Str := (pathParts s).getLastD []

/-- The position of the last occurrence of a character in a string. -/
def lastIdxOf (c : Char) (s : Str) : Option Nat :=
  match s.reverse.findIdx? (fun x => x = c) with
  | none => none
  | some j => some (s.length - 1 - j)

/-- PurePath.suffix: the substring of the name from its last dot on,
provided that dot is neither the first nor the last character of the
name; the empty string otherwise. -/
def pySuffix (filename : Str) : Str :=
  let n := pathName filename
  match lastIdxOf '.' n with
  | none => []
  | some i => if 0 < i ∧ i + 1 < n.length then n.drop i else []

/-- Python str.lower on the ASCII range. -/
def pyLower (s : Str) : Str := s.map Char.toLower

/-- Python repr of a list of strings, as interpolated into the
unsupported-type message. -/
def pyReprStrList (l : List Str) : Str :=
  '[' :: (List.intercalate ((", ").data)
    (l.map fun s => Char.ofNat 39 :: (s ++ [Char.ofNat 39]))) ++ [']']

/-- The rejection message for a disallowed extension. -/
def unsupportedMsg (ext : Str) (allowed : List Str) : Str :=
  ("Unsupported file type: ").data ++ ext ++ (". Allowed types: ").data ++
    pyReprStrList allowed

/-- The rejection message for an oversized file. -/
def tooLargeMsg (maxMB : Nat) : Str :=
  ("File size too large. Maximum: ").data ++ natStr maxMB ++ ("MB").data

/-- DocumentService.validate_file: reject when the lowercased suffix is
not in the allowed extensions, then when the size exceeds the limit of
maxMB times 1024 squared bytes; accept with an empty error message
otherwise. -/
def validateFile (allowed : List Str) (maxMB : Nat) (filename : Str)
    (fileSize : Nat) : Bool × Str :=
  let ext := pyLower (pySuffix filename)
  if ext ∉ allowed then (false, unsupportedMsg ext allowed)
  else if fileSize > maxMB * 1024 * 1024 then (false, tooLargeMsg maxMB)
  else (true, [])

/-- The allowed extensions configured in app/config.py. -/
def defaultAllowed : List Str :=
  [(".pdf").data, (".txt").data, (".md").data, (".docx").data]

/-! The API routes (app/api/routes.py), with the HTTP machinery reduced
to explicit inputs and outcomes and the side effects on collaborators
recorded as traces. -/

/-- An HTTPException outcome: status code and detail message. -/
structure HttpError where
  status : Nat
  detail : Str
deriving DecidableEq, Repr

/-- The detail of the empty-question rejection. -/
def askEmptyDetail : Str := ("Soru boş olamaz").data

/-- The detail of the LLM-unreachable rejection. -/
def askLLMDetail : Str :=
  ("LLM servisi şu anda kullanılamıyor. Ollama").data ++ [Char.ofNat 39] ++
    ("nın çalıştığından emin olun.").data

/-- The detail of the no-documents rejection. -/
def askNoDocsDetail : Str :=
  ("Henüz hiç doküman yüklenmemiş. Önce /upload endpoint").data ++
    [Char.ofNat 39] ++ ("i ile doküman yükleyin.").data

/-- The placeholder context used when search returns nothing. -/
def noContextStr : Str := ("Bağlam bulunamadı.").data

/-- The calls ask_question makes on its collaborators, in order. -/
inductive AskEffect where
  | checkLLM
  | countDocs
  | searchDocs
  | generate
deriving DecidableEq, Repr

/-- Rendering of a metadata value inside an f-string. -/
def metaValStr : MetaVal → Str
  | .s v => v
  | .i n => (Int.repr n).data

/-- Round-half-to-even on rationals, the rounding Python round uses. -/
def roundHalfEven (q : ℚ) : Int :=
  let f := Int.floor q
  let r := q - f
  if r < 1/2 then f
  else if 1/2 < r then f + 1
  else if f % 2 = 0 then f else f + 1

/-- Python round(x, 3) in exact rational arithmetic. -/
def pyRound3 (q : ℚ) : ℚ := (roundHalfEven (q * 1000) : ℚ) / 1000

/-- The truncated content preview built for each cited source: the first
200 characters followed by an ellipsis when longer than 200. -/
def previewContent (s : Str) : Str :=
  if s.length > 200 then s.take 200 ++ ("...").data else s

/-- One cited source of an answer (models SourceDocument). -/
structure SourceDocModel where
  content : Str
  source : MetaVal
  score : ℚ
deriving DecidableEq, Repr

/-- A successful answer: the generated text and the cited sources
(processing time is wall clock and not modelled). -/
structure AskOk where
  answer : Str
  sources : List SourceDocModel
deriving DecidableEq, Repr

/-- The inputs ask_question consumes: the raw question, whether
check_connection succeeds, the collection count, and the behaviour of
the external search and generation capabilities. -/
structure AskEnv where
  question : Str
  llmConnected : Bool
  docCount : Nat
  searchResults : List SearchResult
  llmGen : Str → Str → Str

/-- The ask_question endpoint of app/api/routes.py: reject a blank
question, then an unreachable LLM, then an empty collection, each
without calling search or generation; otherwise search, build the
bracketed context and truncated sources, and generate the answer. -/
def askQuestion (env : AskEnv) : List AskEffect × Except HttpError AskOk :=
  let question := pyStrip env.question
  if question = [] then ([], .error ⟨400, askEmptyDetail⟩)
  else if env.llmConnected = false then ([.checkLLM], .error ⟨503, askLLMDetail⟩)
  else if env.docCount = 0 then
    ([.checkLLM, .countDocs], .error ⟨400, askNoDocsDetail⟩)
  else
    let results := env.searchResults
    let contextParts := results.map fun r =>
      '[' :: metaValStr r.source ++ ("]: ").data ++ r.content
    let sources := results.map fun r =>
      SourceDocModel.mk (previewContent r.content) r.source (pyRound3 r.score)
    let context :=
      if contextParts ≠ [] then List.intercalate nnSep contextParts
      else noContextStr
    ([.checkLLM, .countDocs, .searchDocs, .generate],
      .ok ⟨env.llmGen question context, sources⟩)

/-- The detail of the empty-extracted-text rejection. -/
def emptyTextDetail : Str :=
  ("Dosyadan metin çıkarılamadı. Dosyanın boş olmadığından emin olun.").data

/-- The side effects of upload_document, in order. -/
inductive UploadEffect where
  | saveFile
  | extractText
  | deleteSrc
  | addChunks
deriving DecidableEq, Repr

/-- The upload_document endpoint of app/api/routes.py, for an upload
whose text extraction itself succeeds with the given text: validate,
save the raw file into the documents directory, extract, reject when
the extracted text is blank, otherwise delete the existing chunks for
this filename, chunk the text (no extra metadata) and add the chunks.
The filesystem is the list of stored filenames; the result is the
chunks_created count. -/
def uploadDocument (cs co maxMB : Nat) (allowed : List Str)
    (st : IndexState) (fs : List Str) (filename : Str) (fileSize : Nat)
    (extracted : Str) :
    List UploadEffect × IndexState × List Str × Except HttpError Nat :=
  let v := validateFile allowed maxMB filename fileSize
  if v.1 = false then ([], st, fs, .error ⟨400, v.2⟩)
  else
    let fsSaved := if filename ∈ fs then fs else fs ++ [filename]
    if pyStrip extracted = [] then
      ([.saveFile, .extractText], st, fsSaved, .error ⟨400, emptyTextDetail⟩)
    else
      let afterDelete := deleteBySourceState st filename
      let chunks := splitIntoChunks cs co extracted filename []
      let afterAdd := addChunksState afterDelete.1 chunks
      ([.saveFile, .extractText, .deleteSrc, .addChunks],
        afterAdd.1, fsSaved, .ok afterAdd.2)

/-- The detail of the document-not-found rejection. -/
def notFoundDetail (filename : Str) : Str :=
  ("Doküman bulunamadı: ").data ++ filename

/-- The delete_document endpoint of app/api/routes.py: delete the chunks
for the source, unlink the backing file when it exists, then report
success when chunks were deleted or the path still exists (the source
re-checks existence only after unlinking), and not-found otherwise. -/
def deleteDocument (st : IndexState) (fs : List Str) (filename : Str) :
    IndexState × List Str × Except HttpError Nat :=
  let del := deleteBySourceState st filename
  let fsAfter := if filename ∈ fs then fs.filter (fun f => ! decide (f = filename)) else fs
  if del.2 > 0 || decide (filename ∈ fsAfter) then (del.1, fsAfter, .ok del.2)
  else (del.1, fsAfter, .error ⟨404, notFoundDetail filename⟩)

/-! Concrete inputs used by counterexamples and witnesses. -/

/-- A text whose second paragraph overflows the first while being made
of several short words. -/
def c2Text : Str := ("aa\n\nbb cc dd ee ff").data

/-- A sample source filename. -/
def aTxt : Str := ("a.txt").data

/-- A collection whose every underlying call raises. -/
def chromaDown : ChromaCollection :=
  ⟨fun _ => .error .failure, fun _ => .error .failure, .error .failure, 1⟩

/-- A chunk whose caller metadata reuses the reserved source key. -/
def evilChunk : DocumentChunk :=
  ⟨("hi").data, aTxt, 0, [(srcKey, MetaVal.s (("evil").data))]⟩

/-- The metadata key of the well-behaved sample chunk. -/
def authorKey : Str := ("author").data

/-- The metadata value of the well-behaved sample chunk. -/
def authorVal : MetaVal := MetaVal.s (("Ada").data)

/-- A chunk whose caller metadata avoids the reserved keys. -/
def goodChunk : DocumentChunk :=
  ⟨("hi").data, aTxt, 2, [(authorKey, authorVal)]⟩

/-! Contiguity of chunk indices (claim C1). -/

theorem splitLongAux_map_index (cs : Nat) (src : Str) (md : Metadata) :
    ∀ (ws : List Str) (cur : Str) (idx : Nat),
      (splitLongAux cs src md ws cur idx).map DocumentChunk.chunk_index =
        List.range' idx (splitLongAux cs src md ws cur idx).length := by
  intro ws
  induction ws with
  | nil =>
    intro cur idx
    simp only [splitLongAux]
    split
    · simp [List.range'_one]
    · simp
  | cons w ws ih =>
    intro cur idx
    simp only [splitLongAux]
    split
    · exact ih _ idx
    · split
      · simp [ih _ (idx + 1), List.range'_succ]
      · exact ih _ idx

theorem splitAux_map_index (cs co : Nat) (src : Str) (md : Metadata) :
    ∀ (ps : List Str) (cur : Str) (idx : Nat),
      (splitAux cs co src md ps cur idx).map DocumentChunk.chunk_index =
        List.range' idx (splitAux cs co src md ps cur idx).length := by
  intro ps
  induction ps with
  | nil =>
    intro cur idx
    simp only [splitAux]
    split
    · simp [List.range'_one]
    · simp
  | cons p ps ih =>
    intro cur idx
    simp only [splitAux]
    split
    · exact ih cur idx
    · split
      · exact ih _ idx
      · split
        · simp [ih _ (idx + 1), List.range'_succ]
        · simp only [splitLongText, List.map_append, List.length_append,
            splitLongAux_map_index cs src md, ih]
          generalize (splitLongAux cs src md (pyWords (pyStrip p)) [] idx).length = A
          generalize (splitAux cs co src md ps [] (idx + A)).length = B
          rw [Nat.add_comm A B]
          exact List.range'_append_1 idx A B

/-- Claim C1: for every chunk size, overlap, text, source and metadata,
the chunk_index values of the output of split_into_chunks form exactly
the contiguous range from 0 to the output length, in emission order,
including the chunks emitted by the word-level long-paragraph
fallback. -/
theorem splitIntoChunks_index_contiguous (cs co : Nat) (text source : Str)
    (md : Metadata) :
    (splitIntoChunks cs co text source md).map DocumentChunk.chunk_index =
      List.range (splitIntoChunks cs co text source md).length := by
  rw [List.range_eq_range']
  unfold splitIntoChunks
  split
  · simp
  · exact splitAux_map_index cs co source md (splitNN text) [] 0

/-! Content length bounds (claim C2). -/

theorem pyWordsAux_length_le :
    ∀ (s acc w : Str), w ∈ pyWordsAux s acc → w.length ≤ s.length + acc.length := by
  intro s
  induction s with
  | nil =>
    intro acc w hw
    simp only [pyWordsAux] at hw
    split at hw
    · simp at hw
    · simp only [List.mem_singleton] at hw
      subst hw
      simp
  | cons c rest ih =>
    intro acc w hw
    simp only [pyWordsAux] at hw
    split at hw
    · split at hw
      · have := ih [] w hw
        simp only [List.length_nil, Nat.add_zero] at this
        simp only [List.length_cons]
        omega
      · rcases List.mem_cons.mp hw with h | h
        · subst h
          simp only [List.length_reverse, List.length_cons]
          omega
        · have := ih [] w h
          simp only [List.length_nil, Nat.add_zero] at this
          simp only [List.length_cons]
          omega
    · have := ih (c :: acc) w hw
      simp only [List.length_cons] at this ⊢
      omega

theorem pyWords_length_le (s w : Str) (hw : w ∈ pyWords s) : w.length ≤ s.length := by
  have := pyWordsAux_length_le s [] w hw
  simpa using this

theorem splitLongAux_content_le (cs : Nat) (src : Str) (md : Metadata) (P : Nat) :
    ∀ (ws : List Str) (cur : Str) (idx : Nat),
      (∀ w ∈ ws, w.length ≤ P) → cur.length ≤ max cs P →
      ∀ c ∈ splitLongAux cs src md ws cur idx, c.content.length ≤ max cs P := by
  intro ws
  induction ws with
  | nil =>
    intro cur idx _ hcur c hc
    simp only [splitLongAux] at hc
    split at hc
    · simp only [List.mem_singleton] at hc
      subst hc
      exact hcur
    · simp at hc
  | cons w ws ih =>
    intro cur idx hws hcur c hc
    have hwP : w.length ≤ P := hws w (List.mem_cons_self w ws)
    have hwsTail : ∀ w' ∈ ws, w'.length ≤ P :=
      fun w' h => hws w' (List.mem_cons_of_mem w h)
    simp only [splitLongAux] at hc
    split at hc
    · rename_i hfit
      refine ih _ idx hwsTail (le_trans ?_ (le_max_left cs P)) c hc
      by_cases hc0 : cur = []
      · subst hc0
        simp at hfit ⊢
        omega
      · simp [hc0] at hfit ⊢
        omega
    · split at hc
      · rcases List.mem_cons.mp hc with h | h
        · subst h
          exact hcur
        · exact ih w (idx + 1) hwsTail (le_trans hwP (le_max_right cs P)) c h
      · exact ih w idx hwsTail (le_trans hwP (le_max_right cs P)) c hc

theorem getOverlapText_length_le (co : Nat) (hco : 1 ≤ co) (t : Str) :
    (getOverlapText co t).length ≤ co + 2 := by
  unfold getOverlapText pySliceLast
  split
  · rename_i h
    simp only [List.length_append, nnSep, List.length_cons, List.length_nil]
    omega
  · rename_i h
    have hco0 : ¬ co = 0 := by omega
    simp only [if_neg hco0, List.length_append, List.length_drop, nnSep,
      List.length_cons, List.length_nil]
    omega

theorem splitAux_content_le (cs co : Nat) (src : Str) (md : Metadata) (P : Nat)
    (hco : 1 ≤ co) :
    ∀ (ps : List Str) (cur : Str) (idx : Nat),
      (∀ p ∈ ps, (pyStrip p).length ≤ P) → cur.length ≤ max cs (co + 2 + P) →
      ∀ c ∈ splitAux cs co src md ps cur idx,
        c.content.length ≤ max cs (co + 2 + P) := by
  intro ps
  induction ps with
  | nil =>
    intro cur idx _ hcur c hc
    simp only [splitAux] at hc
    split at hc
    · simp only [List.mem_singleton] at hc
      subst hc
      exact hcur
    · simp at hc
  | cons p ps ih =>
    intro cur idx hps hcur c hc
    have hpP : (pyStrip p).length ≤ P := hps p (List.mem_cons_self p ps)
    have hpsTail : ∀ p' ∈ ps, (pyStrip p').length ≤ P :=
      fun p' h => hps p' (List.mem_cons_of_mem p h)
    simp only [splitAux] at hc
    split at hc
    · exact ih cur idx hpsTail hcur c hc
    · split at hc
      · rename_i hfit
        refine ih _ idx hpsTail (le_trans ?_ (le_max_left cs (co + 2 + P))) c hc
        by_cases hc0 : cur = []
        · subst hc0
          simp at hfit ⊢
          omega
        · simp [hc0, nnSep] at hfit ⊢
          omega
      · split at hc
        · rcases List.mem_cons.mp hc with h | h
          · subst h
            exact hcur
          · refine ih _ (idx + 1) hpsTail ?_ c h
            have hov := getOverlapText_length_le co hco cur
            split
            · simp only [List.length_append]
              refine le_trans ?_ (le_max_right cs (co + 2 + P))
              omega
            · exact le_trans hpP (le_trans (by omega)
                (le_max_right cs (co + 2 + P)))
        · rcases List.mem_append.mp hc with h | h
          · have hbound := splitLongAux_content_le cs src md P
              (pyWords (pyStrip p)) [] idx
              (fun w hw => le_trans (pyWords_length_le _ w hw) hpP)
              (by simp) c (by simpa [splitLongText] using h)
            refine le_trans hbound ?_
            exact max_le_max (le_refl cs) (by omega)
          · exact ih [] _ hpsTail (by simp) c h

/-- Claim C2, amended: assuming a positive chunk_overlap, every chunk
emitted by split_into_chunks has content length at most
max chunk_size (chunk_overlap + 2 + P), where P bounds the stripped
paragraph lengths of the text; the original claim's bound of chunk_size
with only single overlong words exceeding it does not hold, because a
paragraph that overflows a non-empty buffer is attached whole to the
overlap tail without word-level splitting. -/
theorem splitIntoChunks_content_le (cs co : Nat) (text source : Str)
    (md : Metadata) (P : Nat) (hco : 1 ≤ co)
    (hP : ∀ p ∈ splitNN text, (pyStrip p).length ≤ P) :
    ∀ c ∈ splitIntoChunks cs co text source md,
      c.content.length ≤ max cs (co + 2 + P) := by
  intro c hc
  unfold splitIntoChunks at hc
  split at hc
  · simp at hc
  · exact splitAux_content_le cs co source md P hco (splitNN text) [] 0 hP
      (by simp) c hc

/-- Claim C2, counterexample: with chunk_size 10 and chunk_overlap 5,
the text whose 14-character second paragraph overflows the buffer
produces a chunk of 18 characters and six words, so the output violates
the bound of chunk_size with only single overlong words exempt. -/
theorem splitIntoChunks_content_bound_cex :
    ¬ (∀ c ∈ splitIntoChunks 10 5 c2Text aTxt [],
        c.content.length ≤ 10 ∨ (pyWords c.content).length ≤ 1) := by
  decide

/-- Witness for the amended content bound at chunk_size 10, overlap 5
and paragraph bound 14 on the counterexample text. -/
theorem splitIntoChunks_content_le_witness :
    (1 ≤ 5) ∧ (∀ p ∈ splitNN c2Text, (pyStrip p).length ≤ 14) ∧
      ∀ c ∈ splitIntoChunks 10 5 c2Text aTxt [],
        c.content.length ≤ max 10 (5 + 2 + 14) :=
  ⟨by decide, by decide,
    splitIntoChunks_content_le 10 5 c2Text aTxt [] 14 (by decide) (by decide)⟩

/-! Dictionary lemmas for the stored metadata (claim C6). -/

theorem dictGet_dictInsert (d : Metadata) (k' : Str) (v : MetaVal) (k : Str) :
    dictGet (dictInsert d k' v) k =
      if k' = k then some v else dictGet d k := by
  induction d with
  | nil => simp [dictInsert, dictGet]
  | cons kv rest ih =>
    obtain ⟨a, b⟩ := kv
    simp only [dictInsert]
    by_cases hak : a = k'
    · subst hak
      simp only [if_pos rfl, dictGet]
      by_cases h : a = k
      · subst h
        simp
      · simp [h]
    · simp only [if_neg hak, dictGet]
      by_cases h : a = k
      · subst h
        have : ¬ k' = a := fun hh => hak hh.symm
        simp [this]
      · simp [h, ih]

theorem dictGet_dictMerge (m : Metadata) (base : Metadata) (k : Str) :
    dictGet (dictMerge base m) k =
      Option.or (dictGet m.reverse k) (dictGet base k) := by
  induction m using List.reverseRecOn generalizing base with
  | nil => simp [dictMerge, dictGet]
  | append_singleton m kv ih =>
    obtain ⟨a, b⟩ := kv
    simp only [dictMerge, List.foldl_append, List.foldl_cons, List.foldl_nil]
    have hmerge : (m.foldl (fun d kv => dictInsert d kv.1 kv.2) base) =
        dictMerge base m := rfl
    rw [hmerge, dictGet_dictInsert]
    simp only [List.reverse_append, List.reverse_cons, List.reverse_nil,
      List.nil_append, List.cons_append, dictGet]
    by_cases h : a = k
    · subst h
      simp [Option.or]
    · simp [h, ih]

theorem dictGet_eq_none_of_not_mem (m : Metadata) (k : Str)
    (h : k ∉ m.map Prod.fst) : dictGet m k = none := by
  induction m with
  | nil => simp [dictGet]
  | cons kv rest ih =>
    simp only [List.map_cons, List.mem_cons] at h
    push_neg at h
    simp only [dictGet]
    rw [if_neg (fun hh => h.1 hh.symm), ih h.2]

/-- Claim C6, amended: the metadata persisted by add_chunks keeps the
chunk's source and chunk_index in the reserved fields exactly when the
caller metadata does not itself use those keys; a caller entry whose key
collides (its last occurrence) silently overrides the reserved field,
because the merge splats the caller mapping after the reserved pairs. -/
theorem storedMeta_reserved_fields (c : DocumentChunk) :
    (srcKey ∉ c.metadata.map Prod.fst →
        dictGet (storedMeta c) srcKey = some (MetaVal.s c.source)) ∧
    (idxKey ∉ c.metadata.map Prod.fst →
        dictGet (storedMeta c) idxKey = some (MetaVal.i c.chunk_index)) ∧
    (∀ k v, dictGet c.metadata.reverse k = some v →
        dictGet (storedMeta c) k = some v) := by
  refine ⟨?_, ?_, ?_⟩
  · intro h
    have hn : dictGet c.metadata.reverse srcKey = none := by
      apply dictGet_eq_none_of_not_mem
      rw [List.map_reverse, List.mem_reverse]
      exact h
    rw [storedMeta, dictGet_dictMerge, hn]
    simp [Option.or, dictGet]
  · intro h
    have hn : dictGet c.metadata.reverse idxKey = none := by
      apply dictGet_eq_none_of_not_mem
      rw [List.map_reverse, List.mem_reverse]
      exact h
    rw [storedMeta, dictGet_dictMerge, hn]
    have hne : ¬ srcKey = idxKey := by decide
    simp [Option.or, dictGet, hne]
  · intro k v h
    rw [storedMeta, dictGet_dictMerge, h]
    simp [Option.or]

/-- Witness for the amended reserved-field claim on a chunk whose
metadata has only an author entry. -/
theorem storedMeta_reserved_fields_witness :
    dictGet (storedMeta goodChunk) srcKey = some (MetaVal.s goodChunk.source) ∧
    dictGet (storedMeta goodChunk) idxKey =
      some (MetaVal.i goodChunk.chunk_index) ∧
    dictGet (storedMeta goodChunk) authorKey = some authorVal := by
  have h := storedMeta_reserved_fields goodChunk
  exact ⟨h.1 (by decide), h.2.1 (by decide), h.2.2 authorKey authorVal (by decide)⟩

/-- Claim C6, counterexample: a chunk whose caller metadata carries a
source key makes add_chunks persist the caller value, not the chunk's
source field. -/
theorem storedMeta_reserved_fields_cex :
    ¬ (dictGet (storedMeta evilChunk) srcKey =
        some (MetaVal.s evilChunk.source)) := by
  decide

/-! Source and metadata fields of emitted chunks, and the re-upload
contract (claim C3). -/

theorem splitLongAux_source_meta (cs : Nat) (src : Str) (md : Metadata) :
    ∀ (ws : List Str) (cur : Str) (idx : Nat),
      ∀ c ∈ splitLongAux cs src md ws cur idx, c.source = src ∧ c.metadata = md := by
  intro ws
  induction ws with
  | nil =>
    intro cur idx c hc
    simp only [splitLongAux] at hc
    split at hc
    · simp only [List.mem_singleton] at hc
      subst hc
      exact ⟨rfl, rfl⟩
    · simp at hc
  | cons w ws ih =>
    intro cur idx c hc
    simp only [splitLongAux] at hc
    split at hc
    · exact ih _ idx c hc
    · split at hc
      · rcases List.mem_cons.mp hc with h | h
        · subst h
          exact ⟨rfl, rfl⟩
        · exact ih w (idx + 1) c h
      · exact ih w idx c hc

theorem splitAux_source_meta (cs co : Nat) (src : Str) (md : Metadata) :
    ∀ (ps : List Str) (cur : Str) (idx : Nat),
      ∀ c ∈ splitAux cs co src md ps cur idx, c.source = src ∧ c.metadata = md := by
  intro ps
  induction ps with
  | nil =>
    intro cur idx c hc
    simp only [splitAux] at hc
    split at hc
    · simp only [List.mem_singleton] at hc
      subst hc
      exact ⟨rfl, rfl⟩
    · simp at hc
  | cons p ps ih =>
    intro cur idx c hc
    simp only [splitAux] at hc
    split at hc
    · exact ih cur idx c hc
    · split at hc
      · exact ih _ idx c hc
      · split at hc
        · rcases List.mem_cons.mp hc with h | h
          · subst h
            exact ⟨rfl, rfl⟩
          · exact ih _ (idx + 1) c h
        · rcases List.mem_append.mp hc with h | h
          · exact splitLongAux_source_meta cs src md _ [] idx c
              (by simpa [splitLongText] using h)
          · exact ih [] _ c h

theorem splitIntoChunks_source_meta (cs co : Nat) (text src : Str) (md : Metadata) :
    ∀ c ∈ splitIntoChunks cs co text src md, c.source = src ∧ c.metadata = md := by
  intro c hc
  unfold splitIntoChunks at hc
  split at hc
  · simp at hc
  · exact splitAux_source_meta cs co src md (splitNN text) [] 0 c hc

theorem chunkRecord_matches (filename : Str) (c : DocumentChunk)
    (hs : c.source = filename) (hm : c.metadata = []) :
    matchesSource filename (chunkRecord c) = true := by
  subst hs
  simp only [matchesSource, chunkRecord, storedMeta, hm, dictMerge,
    List.foldl_nil, decide_eq_true_eq]
  simp [dictGet]

theorem filter_not_then_filter (st : IndexState) (q : IndexRecord → Bool) :
    (st.filter fun r => ! q r).filter q = [] := by
  induction st with
  | nil => rfl
  | cons r rest ih =>
    by_cases h : q r
    · simp [List.filter_cons, h, ih]
    · simp [List.filter_cons, h, ih]

/-- Claim C3: for an upload that passes validation and extracts
non-blank text, the route first removes every indexed record whose
metadata source equals the filename and then appends the new chunks, so
the resulting collection restricted to that source is exactly the new
upload's records, and the reported count is the number of new chunks. -/
theorem uploadDocument_replaces (cs co maxMB : Nat) (allowed : List Str)
    (st : IndexState) (fs : List Str) (filename : Str) (fileSize : Nat)
    (extracted : Str)
    (hv : (validateFile allowed maxMB filename fileSize).1 = true)
    (hne : pyStrip extracted ≠ []) :
    ((uploadDocument cs co maxMB allowed st fs filename fileSize extracted).2.1 =
      (st.filter fun rec => ! matchesSource filename rec) ++
        (splitIntoChunks cs co extracted filename []).map chunkRecord) ∧
    ((uploadDocument cs co maxMB allowed st fs filename fileSize
        extracted).2.1.filter (matchesSource filename) =
      (splitIntoChunks cs co extracted filename []).map chunkRecord) ∧
    ((uploadDocument cs co maxMB allowed st fs filename fileSize
        extracted).2.2.2 =
      .ok (splitIntoChunks cs co extracted filename []).length) := by
  have hv' : ¬ (validateFile allowed maxMB filename fileSize).1 = false := by
    simp [hv]
  have hmapfilter :
      ((splitIntoChunks cs co extracted filename []).map chunkRecord).filter
          (matchesSource filename) =
        (splitIntoChunks cs co extracted filename []).map chunkRecord := by
    rw [List.filter_eq_self]
    intro r hr
    rcases List.mem_map.mp hr with ⟨c, hc, rfl⟩
    obtain ⟨h1, h2⟩ := splitIntoChunks_source_meta cs co extracted filename [] c hc
    simpa using chunkRecord_matches filename c h1 h2
  simp only [uploadDocument, if_neg hv', if_neg hne, deleteBySourceState,
    addChunksState]
  by_cases hch : splitIntoChunks cs co extracted filename [] = []
  · simp [hch]
  · rw [if_neg hch]
    refine ⟨rfl, ?_, rfl⟩
    rw [List.filter_append, filter_not_then_filter, List.nil_append, hmapfilter]

/-- Witness for the re-upload contract on an empty collection, the
default configuration and a small text file. -/
theorem uploadDocument_replaces_witness :
    (uploadDocument 500 50 10 defaultAllowed [] [] aTxt 100
        (("hello world").data)).2.1.filter (matchesSource aTxt) =
      (splitIntoChunks 500 50 (("hello world").data) aTxt []).map chunkRecord :=
  (uploadDocument_replaces 500 50 10 defaultAllowed [] [] aTxt 100
    (("hello world").data) (by decide) (by decide)).2.1

/-- Claim C9: when validation passes but the extracted text is blank,
the upload rejects with the empty-text error after the raw file has been
saved, and the collection is untouched: neither the delete nor the add
call is made. -/
theorem uploadDocument_emptyText (cs co maxMB : Nat) (allowed : List Str)
    (st : IndexState) (fs : List Str) (filename : Str) (fileSize : Nat)
    (extracted : Str)
    (hv : (validateFile allowed maxMB filename fileSize).1 = true)
    (he : pyStrip extracted = []) :
    ((uploadDocument cs co maxMB allowed st fs filename fileSize extracted).1 =
      [.saveFile, .extractText]) ∧
    ((uploadDocument cs co maxMB allowed st fs filename fileSize
        extracted).2.1 = st) ∧
    ((uploadDocument cs co maxMB allowed st fs filename fileSize
        extracted).2.2.2 = .error ⟨400, emptyTextDetail⟩) ∧
    (UploadEffect.deleteSrc ∉
      (uploadDocument cs co maxMB allowed st fs filename fileSize extracted).1) ∧
    (UploadEffect.addChunks ∉
      (uploadDocument cs co maxMB allowed st fs filename fileSize extracted).1) ∧
    (UploadEffect.saveFile ∈
      (uploadDocument cs co maxMB allowed st fs filename fileSize extracted).1) ∧
    (filename ∈
      (uploadDocument cs co maxMB allowed st fs filename fileSize
        extracted).2.2.1) := by
  have hv' : ¬ (validateFile allowed maxMB filename fileSize).1 = false := by
    simp [hv]
  have heq : uploadDocument cs co maxMB allowed st fs filename fileSize
      extracted =
      ([.saveFile, .extractText], st,
        (if filename ∈ fs then fs else fs ++ [filename]),
        .error ⟨400, emptyTextDetail⟩) := by
    simp only [uploadDocument, if_neg hv', if_pos he]
  rw [heq]
  refine ⟨rfl, rfl, rfl,
    by
      show UploadEffect.deleteSrc ∉ [UploadEffect.saveFile, UploadEffect.extractText]
      decide,
    by
      show UploadEffect.addChunks ∉ [UploadEffect.saveFile, UploadEffect.extractText]
      decide,
    by
      show UploadEffect.saveFile ∈ [UploadEffect.saveFile, UploadEffect.extractText]
      decide, ?_⟩
  by_cases h : filename ∈ fs
  · simp [h]
  · simp [h]

/-- Witness for the empty-extraction behaviour at the default
configuration and a whitespace-only extraction. -/
theorem uploadDocument_emptyText_witness :
    ((uploadDocument 500 50 10 defaultAllowed [] [] aTxt 100
        (("  ").data)).2.1 = []) ∧
    ((uploadDocument 500 50 10 defaultAllowed [] [] aTxt 100
        (("  ").data)).2.2.2 = .error ⟨400, emptyTextDetail⟩) := by
  have h := uploadDocument_emptyText 500 50 10 defaultAllowed [] [] aTxt 100
    (("  ").data) (by decide) (by decide)
  exact ⟨h.2.1, h.2.2.1⟩

/-- Claim C5: evaluating the delete route on a filename that has a
backing file on disk but no indexed chunks shows the source's behaviour:
the file is removed from disk, yet the route reports the 404 not-found
outcome, because the existence re-check runs after the unlink. -/
theorem deleteDocument_file_only_reports_not_found :
    deleteDocument [] [aTxt] aTxt =
      ([], [], .error ⟨404, notFoundDetail aTxt⟩) := by
  rfl

/-! Failure propagation in the store adapter (claim C4). -/

/-- Claim C4, counterexample: with every underlying collection call
raising, delete_by_source does not return 0 and get_sources does not
return the empty list; the exception propagates because no handler
exists in the source. -/
theorem vectorSoftFail_cex :
    ¬ (deleteBySourceExc chromaDown aTxt = .ok 0 ∧
        getSourcesExc chromaDown = .ok []) :=
  fun h => Except.noConfusion h.1

/-- Claim C4, amended: an error raised by the underlying store inside
delete_by_source or get_sources propagates unchanged to the caller; the
0-and-empty outcomes arise only from the no-match and empty-collection
paths. -/
theorem vectorErrorsPropagate (c : ChromaCollection) (source : Str)
    (e : StoreErr) :
    (c.getIdsBySource source = .error e →
      deleteBySourceExc c source = .error e) ∧
    (c.count ≠ 0 → c.getAllMetadatas = .error e →
      getSourcesExc c = .error e) ∧
    (c.getIdsBySource source = .ok [] →
      deleteBySourceExc c source = .ok 0) ∧
    (c.count = 0 → getSourcesExc c = .ok []) := by
  refine ⟨?_, ?_, ?_, ?_⟩
  · intro h
    unfold deleteBySourceExc
    rw [h]
    rfl
  · intro h1 h2
    unfold getSourcesExc
    rw [if_neg h1, h2]
    rfl
  · intro h
    unfold deleteBySourceExc
    rw [h]
    rfl
  · intro h
    unfold getSourcesExc
    rw [if_pos h]

/-- Witness for error propagation on the all-raising collection. -/
theorem vectorErrorsPropagate_witness :
    deleteBySourceExc chromaDown (("b.txt").data) = .error .failure ∧
    getSourcesExc chromaDown = .error .failure := by
  have h := vectorErrorsPropagate chromaDown (("b.txt").data) .failure
  exact ⟨h.1 rfl, h.2.1 (by decide) rfl⟩

/-! Search result scores (claim C7). -/

theorem formatResults_score_map :
    ∀ (docs : List Str) (metas : List Metadata) (ds : List ℚ),
      docs.length ≤ ds.length →
      (formatResults docs metas (some ds)).map SearchResult.score =
        (ds.take docs.length).map (fun d => 1 - d) := by
  intro docs
  induction docs with
  | nil => intro metas ds h; simp [formatResults]
  | cons doc docs ih =>
    intro metas ds h
    cases ds with
    | nil => simp at h
    | cons d ds =>
      simp only [formatResults, List.map_cons, List.headD_cons,
        List.length_cons, List.take_succ_cons]
      have hmap : Option.map List.tail (some (d :: ds)) = some ds := rfl
      rw [hmap, ih metas.tail ds (by simpa using h)]

theorem formatResults_score_none :
    ∀ (docs : List Str) (metas : List Metadata),
      ∀ r ∈ formatResults docs metas none, r.score = 0 := by
  intro docs
  induction docs with
  | nil => intro metas r hr; simp [formatResults] at hr
  | cons doc docs ih =>
    intro metas r hr
    simp only [formatResults, Option.map_none, List.mem_cons] at hr
    rcases hr with h | h
    · subst h
      rfl
    · exact ih metas.tail r h

/-- Claim C7, amended: each search result's score is exactly 1 minus the
corresponding reported distance (0.0 when the distances list is absent),
with no clamping; for cosine distances, which range over 0 to 2, the
score therefore lies in the interval from minus 1 to 1, not 0 to 1. -/
theorem formatResults_score_spec (docs : List Str) (metas : List Metadata)
    (ds : List ℚ) (hlen : docs.length ≤ ds.length)
    (hd : ∀ d ∈ ds, 0 ≤ d ∧ d ≤ 2) :
    ((formatResults docs metas (some ds)).map SearchResult.score =
      (ds.take docs.length).map (fun d => 1 - d)) ∧
    (∀ r ∈ formatResults docs metas (some ds),
      -1 ≤ r.score ∧ r.score ≤ 1) ∧
    (∀ r ∈ formatResults docs metas none, r.score = 0) := by
  refine ⟨formatResults_score_map docs metas ds hlen, ?_,
    formatResults_score_none docs metas⟩
  intro r hr
  have hmem : r.score ∈ (formatResults docs metas (some ds)).map
      SearchResult.score := List.mem_map_of_mem SearchResult.score hr
  rw [formatResults_score_map docs metas ds hlen] at hmem
  rcases List.mem_map.mp hmem with ⟨d, hdmem, hscore⟩
  have hdin : d ∈ ds := List.mem_of_mem_take hdmem
  obtain ⟨h0, h2⟩ := hd d hdin
  constructor
  · rw [← hscore]; linarith
  · rw [← hscore]; linarith

/-- Claim C7, counterexample: a reported cosine distance of 3 halves
yields score minus one half, outside the unit interval. -/
theorem formatResults_score_range_cex :
    ¬ (∀ r ∈ formatResults [("doc").data] [[(srcKey, MetaVal.s aTxt)]]
        (some [(3 : ℚ)/2]), 0 ≤ r.score ∧ r.score ≤ 1) := by
  have hfr : formatResults [("doc").data] [[(srcKey, MetaVal.s aTxt)]]
      (some [(3 : ℚ)/2]) =
      [{ content := ("doc").data, source := MetaVal.s aTxt,
         score := 1 - (3 : ℚ)/2 }] := by
    simp [formatResults, dictGet, srcKey]
  intro h
  rw [hfr] at h
  obtain ⟨h0, -⟩ := h _ (List.mem_singleton.mpr rfl)
  norm_num at h0

/-- Witness for the amended score claim at the distance 3 halves. -/
theorem formatResults_score_spec_witness :
    (formatResults [("doc").data] [[(srcKey, MetaVal.s aTxt)]]
        (some [(3 : ℚ)/2])).map SearchResult.score = [-(1/2 : ℚ)] := by
  have h := (formatResults_score_spec [("doc").data]
    [[(srcKey, MetaVal.s aTxt)]] [(3 : ℚ)/2] (by simp)
    (by
      intro d hd
      rw [List.mem_singleton] at hd
      subst hd
      norm_num)).1
  rw [h]
  norm_num

/-! Precondition ordering in the ask endpoint (claim C8). -/

/-- Claim C8: the ask endpoint checks its preconditions in order with
short-circuiting: blank question, then LLM connectivity, then a
non-empty collection; each failure produces its own distinct error, and
on every error path neither search nor generation is invoked. -/
theorem askQuestion_preconditions (env : AskEnv) :
    (pyStrip env.question = [] →
      askQuestion env = ([], .error ⟨400, askEmptyDetail⟩)) ∧
    (pyStrip env.question ≠ [] → env.llmConnected = false →
      askQuestion env = ([.checkLLM], .error ⟨503, askLLMDetail⟩)) ∧
    (pyStrip env.question ≠ [] → env.llmConnected = true → env.docCount = 0 →
      askQuestion env = ([.checkLLM, .countDocs], .error ⟨400, askNoDocsDetail⟩)) ∧
    (∀ tr e, askQuestion env = (tr, .error e) →
      AskEffect.searchDocs ∉ tr ∧ AskEffect.generate ∉ tr) ∧
    ((⟨400, askEmptyDetail⟩ : HttpError) ≠ ⟨503, askLLMDetail⟩ ∧
      (⟨400, askEmptyDetail⟩ : HttpError) ≠ ⟨400, askNoDocsDetail⟩ ∧
      (⟨503, askLLMDetail⟩ : HttpError) ≠ ⟨400, askNoDocsDetail⟩) := by
  refine ⟨?_, ?_, ?_, ?_, by decide⟩
  · intro h1
    simp [askQuestion, h1]
  · intro h1 h2
    simp [askQuestion, h1, h2]
  · intro h1 h2 h3
    simp [askQuestion, h1, h2, h3]
  · intro tr e h
    simp only [askQuestion] at h
    by_cases h1 : pyStrip env.question = []
    · rw [if_pos h1] at h
      injection h with ha hb
      subst ha
      exact ⟨by decide, by decide⟩
    · rw [if_neg h1] at h
      by_cases h2 : env.llmConnected = false
      · rw [if_pos h2] at h
        injection h with ha hb
        subst ha
        exact ⟨by decide, by decide⟩
      · rw [if_neg h2] at h
        by_cases h3 : env.docCount = 0
        · rw [if_pos h3] at h
          injection h with ha hb
          subst ha
          exact ⟨by decide, by decide⟩
        · rw [if_neg h3] at h
          injection h with ha hb
          exact absurd hb (by simp)

/-- An environment whose question is blank. -/
def askEnvBlank : AskEnv := ⟨[' '], true, 5, [], fun _ _ => []⟩

/-- Witness for the precondition ordering on a blank question. -/
theorem askQuestion_preconditions_witness :
    askQuestion askEnvBlank = ([], .error ⟨400, askEmptyDetail⟩) :=
  (askQuestion_preconditions askEnvBlank).1 (by decide)

/-! File validation (claim C10). -/

/-- Claim C10: validate_file accepts exactly when the lowercased
filename suffix is among the allowed extensions and the size is at most
the configured maximum, and acceptance carries an empty error message;
the suffix is lowercased before the membership test, making extension
matching case-insensitive. -/
theorem validateFile_spec (allowed : List Str) (maxMB : Nat) (filename : Str)
    (fileSize : Nat) :
    ((validateFile allowed maxMB filename fileSize).1 = true ↔
      (pyLower (pySuffix filename) ∈ allowed ∧
        fileSize ≤ maxMB * 1024 * 1024)) ∧
    ((validateFile allowed maxMB filename fileSize).1 = true →
      (validateFile allowed maxMB filename fileSize).2 = []) := by
  simp only [validateFile]
  by_cases h1 : pyLower (pySuffix filename) ∈ allowed
  · by_cases h2 : fileSize > maxMB * 1024 * 1024
    · simp [h1, h2]
    · simp [h1, h2]
      omega
  · simp [h1]

/-- Witness: an uppercase extension is accepted against the configured
lowercase allow-list, with an empty error message. -/
theorem validateFile_spec_witness :
    (validateFile defaultAllowed 10 (("a.PDF").data) 1000).1 = true ∧
    (validateFile defaultAllowed 10 (("a.PDF").data) 1000).2 = [] := by
  have h := validateFile_spec defaultAllowed 10 (("a.PDF").data) 1000
  have hacc := h.1.mpr (by decide)
  exact ⟨hacc, h.2 hacc⟩

end RagService
